import Mathlib

/-!
# Drag-to-reorder of admin inline rows: model and properties

Two scripts reorder the rows of an inline table and write each row's position into its
"sort order" input:

* `store/templates/static/store/admin/sortable.js` (namespace `HandRolled`): HTML5 drag events
  (`dragstart`, `dragover`, `dragend`) registered on every `tr` of the first tbody;
* `store/static/store/admin/sortable.js` (namespace `Delegated`): hands dragging to the Sortable
  library and only supplies the `onEnd` callback.

The DOM is modelled as a heap: nodes are referred to by a key (`Nat`, the identity of the JS
object), the tbody is the ordered list of the keys of its child nodes, and a store maps a key to
the node's data.  The `tr` descendants of the tbody are taken to be its `tr` children (no nested
tables); other child nodes (whitespace text, comments) are kept, since `nextSibling` sees them.
Pointer and box geometry are exact rationals.
-/

namespace Sortable

/-- Exceptions the modelled DOM calls can raise. -/
inductive DomError where
  /-- Raised by `insertBefore` when its first argument is `null`. -/
  | typeError
  /-- Raised by `insertBefore` when the reference node is not a child of the parent. -/
  | notFoundError
deriving DecidableEq, Repr

/-- An `input` element of a row: its `id` and `name` attributes (absent when `none`) and its
current `value`. -/
structure Input where
  id : Option String
  name : Option String
  value : String
deriving DecidableEq, Repr

/-- Data of a child node of the tbody.  `nodeName` is `"tr"` for a table row; `inputs` are the
`input` descendants in document order; `opacity` is `style.opacity`. -/
structure Node where
  nodeName : String
  classList : List String
  draggable : Bool
  opacity : String
  inputs : List Input
deriving DecidableEq, Repr

/-- The heap: node data by node key. -/
abbrev Store := Nat → Node

/-- Whether the string `s` ends with `suffix` (the `$=` operator of attribute selectors). -/
def endsWith (s suffix : String) : Bool :=
  suffix.toList.isSuffixOf s.toList

/-- An attribute selector `[attr$="suffix"]`: the attribute is present and its value ends with
the suffix. -/
def attrEndsWith (attr : Option String) (suffix : String) : Bool :=
  match attr with
  | none => false
  | some v => endsWith v suffix

/-- The selector `input[name$="sort_order"]`. -/
def nameSortOrder (i : Input) : Bool :=
  attrEndsWith i.name "sort_order"

/-- The selector `input[id$="sort_order"]`. -/
def idSortOrder (i : Input) : Bool :=
  attrEndsWith i.id "sort_order"

/-- The selector `tr`. -/
def isTr (n : Node) : Bool :=
  n.nodeName == "tr"

/-- The selector `tr.form-row`. -/
def isTrFormRow (n : Node) : Bool :=
  isTr n && n.classList.contains "form-row"

/-- The expression `row.querySelector(sel)` over the inputs of a row: the position of the first
input matching `sel`, or `none` (JS `null`). -/
def querySelector (sel : Input → Bool) : List Input → Option Nat
  | [] => none
  | i :: rest => if sel i then some 0 else (querySelector sel rest).map (· + 1)

/-- The assignment `input.value = v` on the input at position `j`. -/
def setValue : List Input → Nat → String → List Input
  | [], _, _ => []
  | i :: rest, 0, v => { i with value := v } :: rest
  | i :: rest, j + 1, v => i :: setValue rest j v

/-- The expression `tbody.querySelectorAll(sel)`: the keys of the matching children, in
document order. -/
def querySelectorAll (sel : Node → Bool) (children : List Nat) (node : Store) : List Nat :=
  children.filter (fun k => sel (node k))

/-- The body of the `forEach` callback of both scripts:
`const input = row.querySelector(sel); if (input) input.value = idx;`. -/
def writeIndex (sel : Input → Bool) (node : Store) (row idx : Nat) : Store :=
  match querySelector sel (node row).inputs with
  | none => node
  | some j =>
    Function.update node row
      { node row with inputs := setValue (node row).inputs j (toString idx) }

/-- The loop `rows.forEach((row, idx) => ...)`, with `idx` the index of the next row. -/
def forEachRow (sel : Input → Bool) : List Nat → Nat → Store → Store
  | [], _, node => node
  | row :: rest, idx, node => forEachRow sel rest (idx + 1) (writeIndex sel node row idx)

/-- A row after the `forEach` callback ran on it with index `idx`: the first input matching
`sel`, if there is one, has the value `String(idx)`. -/
def written (sel : Input → Bool) (n : Node) (idx : Nat) : Node :=
  match querySelector sel n.inputs with
  | none => n
  | some j => { n with inputs := setValue n.inputs j (toString idx) }

/-- The index the loop `forEachRow` last passes to the callback for the node `k`, when the rows
are `rows` and the first index is `idx`; `none` when `k` is not among the rows. -/
def lastWrite : List Nat → Nat → Nat → Option Nat
  | [], _, _ => none
  | r :: rest, idx, k =>
    match lastWrite rest (idx + 1) k with
    | some j => some j
    | none => if r = k then some idx else none

/-- A selector on inputs that does not look at the input's value (as `[name$=...]` and
`[id$=...]`). -/
def IgnoresValue (sel : Input → Bool) : Prop :=
  ∀ (i : Input) (v : String), sel { i with value := v } = sel i

/-- The value read from the order-field of a row: the value of the first input matching `sel`,
or `none` when the row has no such input. -/
def orderValue (sel : Input → Bool) (n : Node) : Option String :=
  match querySelector sel n.inputs with
  | none => none
  | some j => (n.inputs.get? j).map (fun i => i.value)

/-- Whether a row carries an order-field for the selector `sel`. -/
def hasOrderField (sel : Input → Bool) (n : Node) : Bool :=
  (querySelector sel n.inputs).isSome

/-- The node after `t` among the children (`t.nextSibling`), `none` (JS `null`) when `t` is
the last child. -/
def nextSibling : List Nat → Nat → Option Nat
  | [], _ => none
  | [_], _ => none
  | a :: b :: rest, t => if a = t then some b else nextSibling (b :: rest) t

/-- Insertion of `n` into a child list before the reference `ref`, at the end when `ref` is
`none`.  `insertBefore` only passes a reference that is among the children; a reference that is
not there also inserts at the end. -/
def insertAt (n : Nat) : Option Nat → List Nat → List Nat
  | none, cs => cs ++ [n]
  | some _, [] => [n]
  | some r, c :: cs => if c = r then n :: c :: cs else c :: insertAt n (some r) cs

/-- The DOM call `parent.insertBefore(node, child)` on the child list of the parent: a `null`
node is a `TypeError`; a child that is not a child of the parent is a `NotFoundError`; when the
child is the node itself the reference becomes the node's next sibling; the node is removed from
its old place and inserted before the reference. -/
def insertBefore (children : List Nat) (node : Option Nat) (child : Option Nat) :
    Except DomError (List Nat) :=
  match node with
  | none => .error .typeError
  | some n =>
    match child with
    | none => .ok (insertAt n none (children.erase n))
    | some c =>
      if c ∈ children then
        let ref := if c = n then nextSibling children n else some c
        .ok (insertAt n ref (children.erase n))
      else .error .notFoundError

namespace HandRolled

/-- State of the hand-rolled controller: the tbody's child nodes in order, the heap, and the
closure variable `draggingRow`. -/
structure State where
  children : List Nat
  node : Store
  draggingRow : Option Nat

/-- The rows of the container: `tbody.querySelectorAll('tr')`. -/
def rows (s : State) : List Nat :=
  querySelectorAll isTr s.children s.node

/-- The `dragstart` listener of the row `tr` (lines 14-17 of the hand-rolled script):
`draggingRow = tr; tr.style.opacity = "0.5";`. -/
def dragstart (s : State) (tr : Nat) : Except DomError State :=
  .ok { s with
    draggingRow := some tr
    node := Function.update s.node tr { s.node tr with opacity := "0.5" } }

/-- The re-index of the `dragend` listener (lines 24-27):
`Array.from(tbody.querySelectorAll('tr')).forEach((row, idx) => ...)` with
`row.querySelector('input[name$="sort_order"]')`. -/
def reindex (children : List Nat) (node : Store) : Store :=
  forEachRow nameSortOrder (querySelectorAll isTr children node) 0 node

/-- The `dragend` listener of the row `tr` (lines 19-28):
`tr.style.opacity = "1"; draggingRow = null;` and the re-index. -/
def dragend (s : State) (tr : Nat) : Except DomError State :=
  let node1 := Function.update s.node tr { s.node tr with opacity := "1" }
  .ok { children := s.children, draggingRow := none, node := reindex s.children node1 }

/-- The `dragover` listener of the row `target` (lines 30-39), for a pointer at `clientY` over a
target whose bounding box has the given `top` and `height`:
`if (target === draggingRow) return;`,
`next = (e.clientY - rect.top) > (rect.height / 2)`,
`tbody.insertBefore(draggingRow, next ? target.nextSibling : target)`.
The call `e.preventDefault()` does not touch the modelled state. -/
def dragover (s : State) (target : Nat) (clientY top height : ℚ) : Except DomError State :=
  if s.draggingRow = some target then .ok s
  else
    let next : Bool := decide (clientY - top > height / 2)
    match insertBefore s.children s.draggingRow
        (if next then nextSibling s.children target else some target) with
    | .error e => .error e
    | .ok cs => .ok { s with children := cs }

/-- One `dragover` event: the row under the pointer, the pointer's `clientY`, and the row's
bounding box. -/
structure Over where
  target : Nat
  clientY : ℚ
  top : ℚ
  height : ℚ

/-- A run of `dragover` events, stopping at the first exception. -/
def dragovers : State → List Over → Except DomError State
  | s, [] => .ok s
  | s, o :: os =>
    match dragover s o.target o.clientY o.top o.height with
    | .error e => .error e
    | .ok s1 => dragovers s1 os

/-- A completed drag of one row: `dragstart`, the `dragover` events, `dragend`. -/
structure Drag where
  row : Nat
  overs : List Over

/-- The events of one completed drag, in order. -/
def runDrag (s : State) (d : Drag) : Except DomError State :=
  match dragstart s d.row with
  | .error e => .error e
  | .ok s1 =>
    match dragovers s1 d.overs with
    | .error e => .error e
    | .ok s2 => dragend s2 d.row

/-- A sequence of completed drags. -/
def runDrags : State → List Drag → Except DomError State
  | s, [] => .ok s
  | s, d :: ds =>
    match runDrag s d with
    | .error e => .error e
    | .ok s1 => runDrags s1 ds

/-- The order-field values of the rows, read in top-to-bottom row order. -/
def orderValues (s : State) : List (Option String) :=
  (rows s).map (fun k => orderValue nameSortOrder (s.node k))

/-- The state `s` has the child nodes of `s0`, possibly in another order, and every node is a
row or not, and has its order-field at the same place, as in `s0`. -/
def SameNodes (s0 s : State) : Prop :=
  s.children.Perm s0.children ∧
  (∀ k, isTr (s.node k) = isTr (s0.node k)) ∧
  (∀ k, querySelector nameSortOrder (s.node k).inputs =
    querySelector nameSortOrder (s0.node k).inputs)

/-- The three listeners the script registers on a row. -/
inductive DragEvent where
  | dragstart
  | dragend
  | dragover
deriving DecidableEq, Repr

/-- The result of `document.querySelector('.inline-group .tabular')`: its first tbody
(`table.querySelector('tbody')`), given by the keys of the tbody's children, when it has one. -/
structure Table where
  tbody : Option (List Nat)

/-- The page the script is loaded in: the table found by the selector (if any), the heap, and
the registered listeners. -/
structure Page where
  table : Option Table
  node : Store
  listeners : List (Nat × DragEvent)

/-- The body of `tbody.querySelectorAll('tr').forEach(tr => ...)`: the row becomes draggable and
gets its three listeners. -/
def enableRow (p : Page) (tr : Nat) : Page :=
  { p with
    node := Function.update p.node tr { p.node tr with draggable := true }
    listeners := p.listeners ++ [(tr, .dragstart), (tr, .dragend), (tr, .dragover)] }

/-- The module function run at load (lines 1-12 and the registration of the listeners):
`if (!table) return;`, `if (!tbody) return;`, `draggingRow = null`, and the `forEach` over the
rows.  Returns the page after it ran and, when the set-up went through, the controller state it
starts with. -/
def init (p : Page) : Except DomError (Page × Option State) :=
  match p.table with
  | none => .ok (p, none)
  | some table =>
    match table.tbody with
    | none => .ok (p, none)
    | some children =>
      let p1 := (querySelectorAll isTr children p.node).foldl enableRow p
      .ok (p1, some { children := children, node := p1.node, draggingRow := none })

end HandRolled

namespace Delegated

/-- The `onEnd` callback (lines 9-15 of the delegated script):
`tbody.querySelectorAll('tr.form-row').forEach((row, index) => ...)` with
`row.querySelector('input[id$="sort_order"]')`. -/
def onEnd (children : List Nat) (node : Store) : Store :=
  forEachRow idSortOrder (querySelectorAll isTrFormRow children node) 0 node

/-- The page at `DOMContentLoaded`: for each element of
`document.querySelectorAll('.inline-group')` the children of its first tbody
(`group.querySelector('tbody')`, `none` when null), and whether `window.Sortable` is truthy. -/
structure Window where
  inlineGroups : List (Option (List Nat))
  Sortable : Bool

/-- A sortable made by `Sortable.create(tbody, options)`: the inline group it was made for
(by position), the tbody's children, and the options `handle` and `animation`; its `onEnd`
option is `onEnd`. -/
structure Instance where
  group : Nat
  tbody : List Nat
  handle : String
  animation : Nat
deriving DecidableEq, Repr

/-- The callback of `inlines.forEach`: `if (!tbody || !window.Sortable) return;` and else
`Sortable.create`. -/
def forGroup (w : Window) (group : Nat) (tbody : Option (List Nat)) : Option Instance :=
  match tbody with
  | none => none
  | some children =>
    if w.Sortable then
      some { group := group, tbody := children, handle := "tr", animation := 150 }
    else none

/-- The `DOMContentLoaded` listener: the sortables it creates, or the exception it raises. -/
def onDOMContentLoaded (w : Window) : Except DomError (List Instance) :=
  .ok (w.inlineGroups.enum.filterMap (fun g => forGroup w g.1 g.2))

end Delegated

/-! ## Example containers -/

/-- A row with class `form-row` and one order-field with the given value. -/
def exRow (v : String) : Node :=
  { nodeName := "tr", classList := ["form-row"], draggable := true, opacity := "",
    inputs := [{ id := some "id_images-0-sort_order", name := some "images-0-sort_order",
                 value := v }] }

/-- Heap of the scenario: rows A, B, C under the keys 0, 1, 2, with fields 0, 1, 2. -/
def abcStore : Store := fun k =>
  if k = 0 then exRow "0" else if k = 1 then exRow "1" else exRow "2"

/-- The scenario's container: rows A, B, C and no drag session. -/
def abc : HandRolled.State :=
  { children := [0, 1, 2], node := abcStore, draggingRow := none }

/-- The scenario's container during a drag of row A. -/
def abcDragging : HandRolled.State :=
  { children := [0, 1, 2], node := abcStore, draggingRow := some 0 }

/-- Heap of a container with mixed children: row 0 with an order-field, the text node 1, row 2
with an input that is no order-field, row 3 with an order-field. -/
def mixedStore : Store := fun k =>
  if k = 0 then exRow "7"
  else if k = 1 then
    { nodeName := "#text", classList := [], draggable := false, opacity := "", inputs := [] }
  else if k = 2 then
    { nodeName := "tr", classList := ["form-row"], draggable := true, opacity := "",
      inputs := [{ id := some "id_images-1-alt_text", name := some "images-1-alt_text",
                   value := "front" }] }
  else exRow "7"

/-- A container with mixed children and no drag session. -/
def mixed : HandRolled.State :=
  { children := [0, 1, 2, 3], node := mixedStore, draggingRow := none }

/-- Heap of a container whose first row is an error row (`tr.row-form-errors`, no inputs)
and whose second row is a form row with an order-field. -/
def errorRowStore : Store := fun k =>
  if k = 0 then
    { nodeName := "tr", classList := ["row-form-errors"], draggable := false, opacity := "",
      inputs := [] }
  else exRow "5"

/-- Heap of a container with one form row whose order-field has a `name` ending in
`sort_order` and no `id`. -/
def noIdStore : Store := fun _ =>
  { nodeName := "tr", classList := ["form-row"], draggable := false, opacity := "",
    inputs := [{ id := none, name := some "images-0-sort_order", value := "5" }] }

/-- A page with the scenario's table. -/
def abcPage : HandRolled.Page :=
  { table := some { tbody := some [0, 1, 2] }, node := abcStore, listeners := [] }

end Sortable

/-! ## Lemmas on the child list, `insertBefore` and the re-index loop -/

namespace Sortable

theorem insertAt_perm (n : Nat) (ref : Option Nat) (l : List Nat) :
    (insertAt n ref l).Perm (n :: l) := by
  cases ref with
  | none =>
    simp only [insertAt]
    exact List.perm_append_singleton n l
  | some r =>
    induction l with
    | nil => simp [insertAt]
    | cons c cs ih =>
      simp only [insertAt]
      split
      · exact List.Perm.refl _
      · exact (List.Perm.cons c ih).trans (List.Perm.swap n c cs)

theorem insertAt_filter_ne (n : Nat) (ref : Option Nat) (l : List Nat) :
    (insertAt n ref l).filter (fun k => decide (k ≠ n)) = l.filter (fun k => decide (k ≠ n)) := by
  cases ref with
  | none => simp [insertAt, List.filter_append]
  | some r =>
    induction l with
    | nil => simp [insertAt]
    | cons c cs ih =>
      simp only [insertAt]
      split
      · simp
      · simp only [List.filter_cons, ih]

theorem erase_filter_ne (n : Nat) (l : List Nat) :
    (l.erase n).filter (fun k => decide (k ≠ n)) = l.filter (fun k => decide (k ≠ n)) := by
  induction l with
  | nil => simp
  | cons c cs ih =>
    by_cases h : c = n
    · subst h; simp
    · rw [List.erase_cons_tail (by simpa using h)]
      simp only [List.filter_cons, ih]

theorem insertAt_of_mem (n t : Nat) (l : List Nat) (ht : t ∈ l) :
    ∃ l1 l2, l = l1 ++ t :: l2 ∧ insertAt n (some t) l = l1 ++ n :: t :: l2 := by
  induction l with
  | nil => simp at ht
  | cons c cs ih =>
    by_cases h : c = t
    · subst h
      exact ⟨[], cs, by simp, by simp [insertAt]⟩
    · have ht2 : t ∈ cs := by
        rcases List.mem_cons.1 ht with h1 | h1
        · exact absurd h1.symm h
        · exact h1
      obtain ⟨l1, l2, h1, h2⟩ := ih ht2
      exact ⟨c :: l1, l2, by simp [h1], by simp [insertAt, h, h2]⟩

theorem nextSibling_mem (cs : List Nat) (t x : Nat) (h : nextSibling cs t = some x) : x ∈ cs := by
  induction cs with
  | nil => simp [nextSibling] at h
  | cons c rest ih =>
    cases rest with
    | nil => simp [nextSibling] at h
    | cons b rest2 =>
      simp only [nextSibling] at h
      split at h
      · simp at h; simp [h]
      · exact List.mem_cons_of_mem _ (ih h)


theorem insertBefore_target (cs : List Nat) (d t : Nat) (hne : t ≠ d) (ht : t ∈ cs) :
    ∃ l1 l2, cs.erase d = l1 ++ t :: l2 ∧
      insertBefore cs (some d) (some t) = .ok (l1 ++ d :: t :: l2) := by
  have ht2 : t ∈ cs.erase d := (List.mem_erase_of_ne hne).2 ht
  obtain ⟨l1, l2, h1, h2⟩ := insertAt_of_mem d t (cs.erase d) ht2
  refine ⟨l1, l2, h1, ?_⟩
  simp [insertBefore, ht, hne, h2]

theorem insertBefore_ok (cs : List Nat) (d : Nat) (child : Option Nat)
    (hc : ∀ c, child = some c → c ∈ cs) :
    ∃ ref, insertBefore cs (some d) child = .ok (insertAt d ref (cs.erase d)) := by
  cases child with
  | none => exact ⟨none, rfl⟩
  | some c =>
    have hmem := hc c rfl
    exact ⟨if c = d then nextSibling cs d else some c, by simp [insertBefore, hmem]⟩

namespace HandRolled

theorem dragover_self (s : State) (t : Nat) (clientY top height : ℚ)
    (hd : s.draggingRow = some t) : dragover s t clientY top height = .ok s := by
  simp [dragover, hd]

theorem dragover_other (s : State) (d t : Nat) (clientY top height : ℚ)
    (hd : s.draggingRow = some d) (hne : t ≠ d) :
    dragover s t clientY top height =
      match insertBefore s.children (some d)
          (if decide (clientY - top > height / 2) then nextSibling s.children t else some t) with
      | .error e => .error e
      | .ok cs => .ok { s with children := cs } := by
  have h : ¬ (d = t) := fun h => hne h.symm
  simp only [dragover, hd, Option.some.injEq, h, if_false]

theorem dragover_upper (s : State) (d t : Nat) (clientY top height : ℚ)
    (hd : s.draggingRow = some d) (hne : t ≠ d) (ht : t ∈ s.children)
    (hy : clientY - top ≤ height / 2) :
    ∃ l1 l2, s.children.erase d = l1 ++ t :: l2 ∧
      dragover s t clientY top height = .ok { s with children := l1 ++ d :: t :: l2 } := by
  obtain ⟨l1, l2, h1, h2⟩ := insertBefore_target s.children d t hne ht
  refine ⟨l1, l2, h1, ?_⟩
  have hn : ¬ (height / 2 < clientY - top) := not_lt.2 hy
  rw [dragover_other s d t clientY top height hd hne]
  simp only [gt_iff_lt, hn, decide_False, Bool.false_eq_true, if_false, h2]

theorem dragover_ok (s : State) (d t : Nat) (clientY top height : ℚ)
    (hd : s.draggingRow = some d) (ht : t ∈ s.children) :
    ∃ cs, dragover s t clientY top height = .ok { s with children := cs } ∧
      (d ∈ s.children → cs.Perm s.children) ∧
      cs.filter (fun k => decide (k ≠ d)) = s.children.filter (fun k => decide (k ≠ d)) := by
  by_cases hne : t = d
  · subst hne
    exact ⟨s.children, dragover_self s t clientY top height hd, fun _ => List.Perm.refl _, rfl⟩
  · obtain ⟨ref, href⟩ := insertBefore_ok s.children d
      (if decide (clientY - top > height / 2) then nextSibling s.children t else some t)
      (by
        intro c hc
        split at hc
        · exact nextSibling_mem _ _ _ hc
        · simp at hc; rw [← hc]; exact ht)
    refine ⟨insertAt d ref (s.children.erase d), ?_, ?_, ?_⟩
    · rw [dragover_other s d t clientY top height hd hne, href]
    · intro hdm
      exact (insertAt_perm d ref _).trans (List.perm_cons_erase hdm).symm
    · rw [insertAt_filter_ne, erase_filter_ne]

end HandRolled

theorem nameSortOrder_ignoresValue : IgnoresValue nameSortOrder := fun _ _ => rfl

theorem idSortOrder_ignoresValue : IgnoresValue idSortOrder := fun _ _ => rfl

theorem querySelector_setValue (sel : Input → Bool) (hs : IgnoresValue sel) (l : List Input)
    (j : Nat) (v : String) : querySelector sel (setValue l j v) = querySelector sel l := by
  induction l generalizing j with
  | nil => rfl
  | cons i rest ih =>
    cases j with
    | zero => simp only [setValue, querySelector, hs i v]
    | succ j => simp only [setValue, querySelector, ih j]

theorem setValue_setValue (l : List Input) (j : Nat) (v w : String) :
    setValue (setValue l j v) j w = setValue l j w := by
  induction l generalizing j with
  | nil => rfl
  | cons i rest ih =>
    cases j with
    | zero => rfl
    | succ j => simp only [setValue, ih j]

theorem get?_setValue (sel : Input → Bool) (l : List Input) (j : Nat) (v : String)
    (h : querySelector sel l = some j) :
    ((setValue l j v).get? j).map (fun i => i.value) = some v := by
  induction l generalizing j with
  | nil => simp [querySelector] at h
  | cons i rest ih =>
    simp only [querySelector] at h
    split at h
    · simp at h; subst h; simp [setValue]
    · cases hq : querySelector sel rest with
      | none => simp [hq] at h
      | some j2 =>
        simp [hq] at h
        subst h
        simpa [setValue] using ih j2 hq

theorem writeIndex_eq (sel : Input → Bool) (node : Store) (row idx : Nat) :
    writeIndex sel node row idx = Function.update node row (written sel (node row) idx) := by
  unfold writeIndex written
  cases querySelector sel (node row).inputs with
  | none => simp
  | some j => rfl

theorem written_of_none (sel : Input → Bool) (n : Node) (idx : Nat)
    (h : querySelector sel n.inputs = none) : written sel n idx = n := by
  simp [written, h]

theorem written_of_some (sel : Input → Bool) (n : Node) (idx j : Nat)
    (h : querySelector sel n.inputs = some j) :
    written sel n idx = { n with inputs := setValue n.inputs j (toString idx) } := by
  simp [written, h]

theorem written_written (sel : Input → Bool) (hs : IgnoresValue sel) (n : Node) (i j : Nat) :
    written sel (written sel n i) j = written sel n j := by
  cases h : querySelector sel n.inputs with
  | none => simp [written, h]
  | some p =>
    have h2 : querySelector sel (setValue n.inputs p (toString i)) = some p := by
      rw [querySelector_setValue sel hs, h]
    simp [written, h, h2, setValue_setValue]

theorem orderValue_written (sel : Input → Bool) (hs : IgnoresValue sel) (n : Node) (i p : Nat)
    (h : querySelector sel n.inputs = some p) :
    orderValue sel (written sel n i) = some (toString i) := by
  have h2 : querySelector sel (setValue n.inputs p (toString i)) = some p := by
    rw [querySelector_setValue sel hs, h]
  simp only [orderValue, written, h, h2]
  exact get?_setValue sel n.inputs p (toString i) h

theorem forEachRow_apply (sel : Input → Bool) (hs : IgnoresValue sel) (ks : List Nat) (i : Nat)
    (node : Store) (k : Nat) :
    forEachRow sel ks i node k =
      match lastWrite ks i k with
      | none => node k
      | some j => written sel (node k) j := by
  induction ks generalizing i node with
  | nil => rfl
  | cons r rest ih =>
    simp only [forEachRow, lastWrite]
    rw [ih (i + 1) (writeIndex sel node r i), writeIndex_eq]
    cases hl : lastWrite rest (i + 1) k with
    | some j =>
      by_cases hk : k = r
      · subst hk; simp [written_written sel hs]
      · simp [Function.update_noteq hk]
    | none =>
      by_cases hk : k = r
      · subst hk; simp
      · have hk2 : ¬ r = k := fun h => hk h.symm
        simp [Function.update_noteq hk, hk2]

theorem lastWrite_of_not_mem (ks : List Nat) (i k : Nat) (h : k ∉ ks) :
    lastWrite ks i k = none := by
  induction ks generalizing i with
  | nil => rfl
  | cons r rest ih =>
    have h1 : ¬ r = k := fun e => h (by simp [e])
    have h2 : k ∉ rest := fun e => h (by simp [e])
    simp [lastWrite, ih (i + 1) h2, h1]

theorem lastWrite_of_get? (ks : List Nat) (i j k : Nat) (hnd : ks.Nodup)
    (h : ks[j]? = some k) : lastWrite ks i k = some (i + j) := by
  induction ks generalizing i j with
  | nil => simp at h
  | cons r rest ih =>
    rw [List.nodup_cons] at hnd
    cases j with
    | zero =>
      simp at h
      subst h
      simp [lastWrite, lastWrite_of_not_mem rest (i + 1) r hnd.1]
    | succ j =>
      simp at h
      have := ih (i + 1) j hnd.2 (by simpa using h)
      simp [lastWrite, this]
      omega

theorem forEachRow_at (sel : Input → Bool) (hs : IgnoresValue sel) (ks : List Nat)
    (node : Store) (hnd : ks.Nodup) (j k : Nat) (h : ks[j]? = some k) :
    forEachRow sel ks 0 node k = written sel (node k) j := by
  rw [forEachRow_apply sel hs, lastWrite_of_get? ks 0 j k hnd h]
  simp

theorem forEachRow_of_not_mem (sel : Input → Bool) (hs : IgnoresValue sel) (ks : List Nat)
    (i : Nat) (node : Store) (k : Nat) (h : k ∉ ks) : forEachRow sel ks i node k = node k := by
  rw [forEachRow_apply sel hs, lastWrite_of_not_mem ks i k h]

theorem forEachRow_preserves {α : Type} (f : Node → α)
    (hf : ∀ (n : Node) (l : List Input), f { n with inputs := l } = f n)
    (sel : Input → Bool) (hs : IgnoresValue sel) (ks : List Nat) (i : Nat) (node : Store)
    (k : Nat) : f (forEachRow sel ks i node k) = f (node k) := by
  rw [forEachRow_apply sel hs]
  cases lastWrite ks i k with
  | none => rfl
  | some j =>
    simp only [written]
    cases querySelector sel (node k).inputs with
    | none => rfl
    | some p => exact hf _ _

theorem forEachRow_idem (sel : Input → Bool) (hs : IgnoresValue sel) (ks : List Nat) (i : Nat)
    (node : Store) : forEachRow sel ks i (forEachRow sel ks i node) = forEachRow sel ks i node := by
  funext k
  rw [forEachRow_apply sel hs ks i (forEachRow sel ks i node), forEachRow_apply sel hs ks i node]
  cases lastWrite ks i k with
  | none => rfl
  | some j => simp [written_written sel hs]

theorem querySelectorAll_forEachRow (p : Node → Bool)
    (hp : ∀ (n : Node) (l : List Input), p { n with inputs := l } = p n)
    (sel : Input → Bool) (hs : IgnoresValue sel) (cs ks : List Nat) (i : Nat) (node : Store) :
    querySelectorAll p cs (forEachRow sel ks i node) = querySelectorAll p cs node := by
  unfold querySelectorAll
  congr 1
  funext k
  exact forEachRow_preserves p hp sel hs ks i node k

theorem forEachRow_values (sel : Input → Bool) (hs : IgnoresValue sel) (ks : List Nat)
    (node : Store) (hnd : ks.Nodup)
    (hf : ∀ k ∈ ks, querySelector sel (node k).inputs ≠ none) :
    ks.map (fun k => orderValue sel (forEachRow sel ks 0 node k)) =
      (List.range ks.length).map (fun i => some (toString i)) := by
  apply List.ext_getElem?
  intro j
  by_cases hj : j < ks.length
  · have hk : ks[j]? = some ks[j] := List.getElem?_eq_getElem hj
    have hmem : ks[j] ∈ ks := List.getElem_mem hj
    cases hq : querySelector sel (node ks[j]).inputs with
    | none => exact absurd hq (hf _ hmem)
    | some p =>
      rw [List.getElem?_map, List.getElem?_map, hk, List.getElem?_range hj]
      simp only [Option.map_some']
      rw [forEachRow_at sel hs ks node hnd j _ hk, orderValue_written sel hs _ j p hq]
  · have h1 : ks.length ≤ j := Nat.le_of_not_lt hj
    rw [List.getElem?_eq_none (by simpa using h1), List.getElem?_eq_none (by simpa using h1)]

end Sortable

/-! ## The claims -/

namespace Sortable
namespace HandRolled

theorem rows_split (s : State) (l1 l2 : List Nat) (a b : Nat)
    (ha : isTr (s.node a) = true) (hb : isTr (s.node b) = true) :
    rows { s with children := l1 ++ a :: b :: l2 } =
      querySelectorAll isTr l1 s.node ++ a :: b :: querySelectorAll isTr l2 s.node := by
  simp [rows, querySelectorAll, List.filter_append, List.filter_cons, ha, hb]

/-- The scenario evaluated: dragging A over the lower half of C gives the order B, C, A. -/
theorem dragover_scenario :
    dragover abcDragging 2 15 0 20 = .ok { abcDragging with children := [1, 2, 0] } := by
  have h : (20 : ℚ) / 2 < 15 - 0 := by norm_num
  simp only [dragover, gt_iff_lt, h, decide_True, if_true]
  rfl


/-- C3, counterexample.  Rows A, B, C (keys 0, 1, 2), A dragged over C with the pointer exactly
at the midpoint of C (offset 10 of height 20): `dragover` places A immediately before C, giving
B, A, C, and A is not immediately after C. -/
theorem dragover_midpoint_counterexample :
    abcDragging.draggingRow = some 0 ∧ (10 : ℚ) - 0 = 20 / 2 ∧
    dragover abcDragging 2 10 0 20 = .ok { abcDragging with children := [1, 0, 2] } ∧
    ¬ ∃ l1 l2, [1, 0, 2] = l1 ++ 2 :: 0 :: l2 := by
  refine ⟨rfl, by norm_num, ?_, ?_⟩
  · have h : ¬ ((20 : ℚ) / 2 < 10 - 0) := by norm_num
    simp only [dragover, gt_iff_lt, h, decide_False]
    rfl
  · rintro ⟨l1, l2, h⟩
    rcases l1 with _ | ⟨a, _ | ⟨b, _ | ⟨c, l1⟩⟩⟩ <;> simp at h

/-- C3 as amended (midpoint tie-break).  With an active dragged row `d`, a `dragover` on another
child `t` with the pointer offset `clientY - top` exactly `height / 2` counts as the upper half:
it returns without exception and places `d` immediately before `t`, the other children keeping
their order. -/
theorem dragover_midpoint (s : State) (d t : Nat) (clientY top height : ℚ)
    (hd : s.draggingRow = some d) (hne : t ≠ d) (ht : t ∈ s.children)
    (hy : clientY - top = height / 2) :
    ∃ l1 l2, s.children.erase d = l1 ++ t :: l2 ∧
      dragover s t clientY top height = .ok { s with children := l1 ++ d :: t :: l2 } ∧
      (isTr (s.node d) = true → isTr (s.node t) = true →
        rows { s with children := l1 ++ d :: t :: l2 } =
          querySelectorAll isTr l1 s.node ++ d :: t :: querySelectorAll isTr l2 s.node) := by
  obtain ⟨l1, l2, h1, h2⟩ := dragover_upper s d t clientY top height hd hne ht (le_of_eq hy)
  exact ⟨l1, l2, h1, h2, fun h3 h4 => rows_split s l1 l2 d t h3 h4⟩

/-- Witness of the amended C3: rows A, B, C, A dragged over the exact midpoint of C. -/
theorem dragover_midpoint_witness :
    abcDragging.draggingRow = some 0 ∧ (2 : Nat) ≠ 0 ∧ 2 ∈ abcDragging.children ∧
    (10 : ℚ) - 0 = 20 / 2 ∧
    ∃ l1 l2, abcDragging.children.erase 0 = l1 ++ 2 :: l2 ∧
      dragover abcDragging 2 10 0 20 = .ok { abcDragging with children := l1 ++ 0 :: 2 :: l2 } ∧
      (isTr (abcDragging.node 0) = true → isTr (abcDragging.node 2) = true →
        rows { abcDragging with children := l1 ++ 0 :: 2 :: l2 } =
          querySelectorAll isTr l1 abcDragging.node ++
            0 :: 2 :: querySelectorAll isTr l2 abcDragging.node) :=
  ⟨rfl, by decide, by decide, by norm_num,
    dragover_midpoint abcDragging 0 2 10 0 20 rfl (by decide) (by decide) (by norm_num)⟩

/-- C6, the failing case.  With no active dragged row (`draggingRow` is `null`) the guard
`target === draggingRow` does not fire and `tbody.insertBefore(null, ...)` raises a `TypeError`:
so in the scenario's container with no drag session, and in every state with `draggingRow` null,
for every target and pointer position. -/
theorem dragover_without_session :
    dragover abc 2 15 0 20 = .error .typeError ∧
    ∀ (s : State) (t : Nat) (clientY top height : ℚ),
      dragover { s with draggingRow := none } t clientY top height = .error .typeError := by
  constructor
  · simp [dragover, abc, insertBefore]
  · intro s t clientY top height
    simp [dragover, insertBefore]

/-- C10 (drag-over only permutes).  With an active dragged row `d` in the container, a
`dragover` on a child `t` (another one, or `d` itself) returns without exception a state whose child list is a
permutation of the old one (same length), in which the children other than `d` keep their
relative order; the same holds for the list of rows; the heap, and so every order-field value,
and `draggingRow` are unchanged. -/
theorem dragover_permutes (s : State) (d t : Nat) (clientY top height : ℚ)
    (hd : s.draggingRow = some d) (hdm : d ∈ s.children) (ht : t ∈ s.children) :
    ∃ s1, dragover s t clientY top height = .ok s1 ∧
      s1.children.Perm s.children ∧ s1.children.length = s.children.length ∧
      s1.children.filter (fun k => decide (k ≠ d)) = s.children.filter (fun k => decide (k ≠ d)) ∧
      (rows s1).Perm (rows s) ∧ (rows s1).length = (rows s).length ∧
      (rows s1).filter (fun k => decide (k ≠ d)) = (rows s).filter (fun k => decide (k ≠ d)) ∧
      s1.node = s.node ∧ s1.draggingRow = s.draggingRow := by
  obtain ⟨cs, h1, h2, h3⟩ := dragover_ok s d t clientY top height hd ht
  have hp := h2 hdm
  have hr : (rows { s with children := cs }).Perm (rows s) := by
    simp only [rows, querySelectorAll]
    exact hp.filter _
  refine ⟨{ s with children := cs }, h1, hp, hp.length_eq, h3, hr, hr.length_eq, ?_, rfl, rfl⟩
  simp only [rows, querySelectorAll, List.filter_filter]
  have hc : ∀ l : List Nat,
      l.filter (fun a => decide (a ≠ d) && isTr (s.node a)) =
        (l.filter (fun k => decide (k ≠ d))).filter (fun a => isTr (s.node a)) := by
    intro l
    rw [List.filter_filter]
    congr 1
    funext a
    exact Bool.and_comm _ _
  rw [hc cs, hc s.children, h3]

/-- Witness of C10: rows A, B, C, A dragged over the lower half of C. -/
theorem dragover_permutes_witness :
    abcDragging.draggingRow = some 0 ∧ 0 ∈ abcDragging.children ∧ 2 ∈ abcDragging.children ∧
    ∃ s1, dragover abcDragging 2 15 0 20 = .ok s1 ∧
      s1.children.Perm abcDragging.children ∧
      s1.children.length = abcDragging.children.length ∧
      s1.children.filter (fun k => decide (k ≠ 0)) =
        abcDragging.children.filter (fun k => decide (k ≠ 0)) ∧
      (rows s1).Perm (rows abcDragging) ∧ (rows s1).length = (rows abcDragging).length ∧
      (rows s1).filter (fun k => decide (k ≠ 0)) =
        (rows abcDragging).filter (fun k => decide (k ≠ 0)) ∧
      s1.node = abcDragging.node ∧ s1.draggingRow = abcDragging.draggingRow :=
  ⟨rfl, by decide, by decide,
    dragover_permutes abcDragging 0 2 15 0 20 rfl (by decide) (by decide)⟩

end HandRolled

theorem forEachRow_querySelector (sel : Input → Bool) (hs : IgnoresValue sel) (ks : List Nat)
    (i : Nat) (node : Store) (k : Nat) :
    querySelector sel (forEachRow sel ks i node k).inputs = querySelector sel (node k).inputs := by
  rw [forEachRow_apply sel hs]
  cases lastWrite ks i k with
  | none => rfl
  | some j =>
    cases hq : querySelector sel (node k).inputs with
    | none => simp [written, hq]
    | some p => simp [written, hq, querySelector_setValue sel hs]

namespace HandRolled

theorem dragovers_ok (s : State) (d : Nat) (os : List Over)
    (hd : s.draggingRow = some d) (hdm : d ∈ s.children)
    (ht : ∀ o ∈ os, o.target ∈ s.children) :
    ∃ cs, dragovers s os = .ok { s with children := cs } ∧ cs.Perm s.children := by
  induction os generalizing s with
  | nil => exact ⟨s.children, rfl, List.Perm.refl _⟩
  | cons o os ih =>
    obtain ⟨cs, h1, h2, -⟩ :=
      dragover_ok s d o.target o.clientY o.top o.height hd (ht o (by simp))
    have hp := h2 hdm
    obtain ⟨cs2, h3, h4⟩ := ih { s with children := cs } hd (hp.mem_iff.2 hdm)
      (fun o2 ho2 => hp.mem_iff.2 (ht o2 (by simp [ho2])))
    refine ⟨cs2, ?_, h4.trans hp⟩
    simp only [dragovers, h1]
    exact h3

theorem rows_subset (s : State) (k : Nat) (h : k ∈ rows s) : k ∈ s.children :=
  (List.mem_filter.1 h).1

theorem runDrag_ok (s : State) (d : Drag) (hr : d.row ∈ s.children)
    (ht : ∀ o ∈ d.overs, o.target ∈ s.children) :
    ∃ cs, cs.Perm s.children ∧
      runDrag s d = .ok {
        children := cs
        draggingRow := none
        node := reindex cs (Function.update
          (Function.update s.node d.row { (s.node d.row) with opacity := "0.5" }) d.row
          { (s.node d.row) with opacity := "1" }) } := by
  obtain ⟨cs, h1, h2⟩ := dragovers_ok
    { children := s.children
      draggingRow := some d.row
      node := Function.update s.node d.row { (s.node d.row) with opacity := "0.5" } }
    d.row d.overs rfl hr ht
  refine ⟨cs, h2, ?_⟩
  simp only [runDrag, dragstart, h1, dragend, Function.update_same]

theorem reindex_opacity (cs : List Nat) (node : Store) (k : Nat) :
    (reindex cs node k).opacity = (node k).opacity :=
  forEachRow_preserves (fun n => n.opacity) (fun _ _ => rfl) nameSortOrder
    nameSortOrder_ignoresValue _ 0 node k

/-- C5 (session cleanup).  For every row `r` of the container and every run of `dragover`
events on rows of the container, the sequence `dragstart(r)`, the drag-overs, `dragend(r)` runs
without exception (whatever `draggingRow` held before), and afterwards `draggingRow` is null,
the opacity of `r` is `"1"`, and the opacity of every other node is what it was before the drag;
so when no node had the de-emphasised opacity `"0.5"` before, none has it afterwards.  The run
of drag-overs may be empty or hit only `r` itself (a drop with no reorder). -/
theorem session_cleanup (s : State) (r : Nat) (overs : List Over)
    (hr : r ∈ rows s) (ht : ∀ o ∈ overs, o.target ∈ rows s) :
    ∃ s1, runDrag s { row := r, overs := overs } = .ok s1 ∧ s1.draggingRow = none ∧
      (s1.node r).opacity = "1" ∧
      (∀ k, k ≠ r → (s1.node k).opacity = (s.node k).opacity) ∧
      ((∀ k, (s.node k).opacity ≠ "0.5") → ∀ k, (s1.node k).opacity ≠ "0.5") := by
  obtain ⟨cs, -, h⟩ := runDrag_ok s { row := r, overs := overs } (rows_subset s r hr)
    (fun o ho => rows_subset s _ (ht o ho))
  have h1 : ∀ node : Store, (reindex cs (Function.update node r
      { s.node r with opacity := "1" }) r).opacity = "1" := by
    intro node
    rw [reindex_opacity]; simp
  have h2 : ∀ (node : Store) (v : Node) (k : Nat), k ≠ r → (∀ j, j ≠ r → node j = s.node j) →
      (reindex cs (Function.update node r v) k).opacity = (s.node k).opacity := by
    intro node v k hk hn
    rw [reindex_opacity, Function.update_noteq hk, hn k hk]
  have hupd : ∀ j, j ≠ r →
      Function.update s.node r { s.node r with opacity := "0.5" } j = s.node j :=
    fun j hj => Function.update_noteq hj _ _
  refine ⟨_, h, rfl, h1 _, fun k hk => h2 _ _ k hk hupd, ?_⟩
  intro h0 k
  by_cases hk : k = r
  · subst hk
    show (reindex cs _ k).opacity ≠ "0.5"
    rw [h1]; decide
  · show (reindex cs _ k).opacity ≠ "0.5"
    rw [h2 _ _ k hk hupd]; exact h0 k

/-- Witness of C5: row A of the scenario is picked up, dragged over itself, and dropped. -/
theorem session_cleanup_witness :
    0 ∈ rows abc ∧
    ∃ s1, runDrag abc { row := 0, overs := [⟨0, 5, 0, 20⟩] } = .ok s1 ∧ s1.draggingRow = none ∧
      (s1.node 0).opacity = "1" ∧
      (∀ k, k ≠ 0 → (s1.node k).opacity = (abc.node k).opacity) ∧
      ((∀ k, (abc.node k).opacity ≠ "0.5") → ∀ k, (s1.node k).opacity ≠ "0.5") :=
  ⟨by decide, session_cleanup abc 0 [⟨0, 5, 0, 20⟩] (by decide) (by decide)⟩

end HandRolled

theorem hasOrderField_iff (sel : Input → Bool) (n : Node) :
    hasOrderField sel n = true ↔ querySelector sel n.inputs ≠ none := by
  unfold hasOrderField
  cases querySelector sel n.inputs <;> simp

/-- After the loop ran over the rows selected by `p`, the order-fields of these rows, read in
row order, hold the indices `0, 1, ...`. -/
theorem forEachRow_orderValues (p : Node → Bool)
    (hp : ∀ (n : Node) (l : List Input), p { n with inputs := l } = p n)
    (sel : Input → Bool) (hs : IgnoresValue sel) (cs : List Nat) (node : Store)
    (hnd : cs.Nodup)
    (hf : ∀ k ∈ querySelectorAll p cs node, hasOrderField sel (node k) = true) :
    (querySelectorAll p cs (forEachRow sel (querySelectorAll p cs node) 0 node)).map
        (fun k => orderValue sel (forEachRow sel (querySelectorAll p cs node) 0 node k)) =
      (List.range (querySelectorAll p cs node).length).map (fun i => some (toString i)) := by
  rw [querySelectorAll_forEachRow p hp sel hs]
  exact forEachRow_values sel hs _ node (hnd.filter _)
    (fun k hk => (hasOrderField_iff sel _).1 (hf k hk))

namespace HandRolled

theorem SameNodes.rows_perm {s0 s : State} (h : SameNodes s0 s) : (rows s).Perm (rows s0) := by
  obtain ⟨hp, ht, -⟩ := h
  have h1 : rows s = s.children.filter (fun k => isTr (s0.node k)) := by
    simp only [rows, querySelectorAll]
    congr 1
    funext k
    exact ht k
  rw [h1]
  exact hp.filter _

theorem runDrag_sameNodes (s0 s : State) (d : Drag) (hs : SameNodes s0 s)
    (hr : d.row ∈ s0.children) (ht : ∀ o ∈ d.overs, o.target ∈ s0.children)
    (hnd : s0.children.Nodup)
    (hf : ∀ k ∈ rows s0, hasOrderField nameSortOrder (s0.node k) = true) :
    ∃ s1, runDrag s d = .ok s1 ∧ SameNodes s0 s1 ∧
      orderValues s1 = (List.range (rows s0).length).map (fun i => some (toString i)) := by
  obtain ⟨hp, htr, hq⟩ := hs
  obtain ⟨cs, hcs, hrun⟩ := runDrag_ok s d (hp.mem_iff.2 hr)
    (fun o ho => hp.mem_iff.2 (ht o ho))
  have hn1 : ∀ k, (Function.update
      (Function.update s.node d.row { (s.node d.row) with opacity := "0.5" }) d.row
      { (s.node d.row) with opacity := "1" } k).inputs = (s.node k).inputs := by
    intro k
    by_cases hk : k = d.row
    · subst hk; simp
    · simp [Function.update_noteq hk]
  have hn2 : ∀ k, isTr (Function.update
      (Function.update s.node d.row { (s.node d.row) with opacity := "0.5" }) d.row
      { (s.node d.row) with opacity := "1" } k) = isTr (s.node k) := by
    intro k
    by_cases hk : k = d.row
    · subst hk; simp [isTr]
    · simp [Function.update_noteq hk]
  generalize Function.update
      (Function.update s.node d.row { (s.node d.row) with opacity := "0.5" }) d.row
      { (s.node d.row) with opacity := "1" } = node1 at hrun hn1 hn2
  have hsame : SameNodes s0 { children := cs, draggingRow := none, node := reindex cs node1 } := by
    refine ⟨hcs.trans hp, ?_, ?_⟩
    · intro k
      show isTr (reindex cs node1 k) = _
      rw [← htr k, ← hn2 k]
      exact forEachRow_preserves isTr (fun _ _ => rfl) nameSortOrder
        nameSortOrder_ignoresValue _ 0 node1 k
    · intro k
      show querySelector nameSortOrder (reindex cs node1 k).inputs = _
      rw [← hq k, ← hn1 k]
      exact forEachRow_querySelector nameSortOrder nameSortOrder_ignoresValue _ 0 node1 k
  refine ⟨_, hrun, hsame, ?_⟩
  have hlen : (querySelectorAll isTr cs node1).length = (rows s0).length := by
    have h1 : querySelectorAll isTr cs node1 = cs.filter (fun k => isTr (s0.node k)) := by
      simp only [querySelectorAll]
      congr 1
      funext k
      rw [hn2 k, htr k]
    rw [h1]
    exact ((hcs.trans hp).filter _).length_eq
  have hnd1 : cs.Nodup := (hcs.trans hp).nodup_iff.2 hnd
  have hf1 : ∀ k ∈ querySelectorAll isTr cs node1, hasOrderField nameSortOrder (node1 k) = true := by
    intro k hk
    have hk1 := List.mem_filter.1 hk
    have hk2 : k ∈ rows s0 := by
      refine List.mem_filter.2 ⟨(hcs.trans hp).mem_iff.1 hk1.1, ?_⟩
      rw [← htr k, ← hn2 k]; exact hk1.2
    have := hf k hk2
    unfold hasOrderField at this ⊢
    rw [hn1 k, hq k]; exact this
  rw [← hlen]
  exact forEachRow_orderValues isTr (fun _ _ => rfl) nameSortOrder nameSortOrder_ignoresValue
    cs node1 hnd1 hf1

theorem runDrags_cons_sameNodes (s0 : State) (hnd : s0.children.Nodup)
    (hf : ∀ k ∈ rows s0, hasOrderField nameSortOrder (s0.node k) = true)
    (ds : List Drag) (d : Drag) (s : State) (hs : SameNodes s0 s)
    (hev : ∀ e ∈ d :: ds, e.row ∈ s0.children ∧ ∀ o ∈ e.overs, o.target ∈ s0.children) :
    ∃ s1, runDrags s (d :: ds) = .ok s1 ∧ SameNodes s0 s1 ∧
      orderValues s1 = (List.range (rows s0).length).map (fun i => some (toString i)) := by
  induction ds generalizing d s with
  | nil =>
    obtain ⟨s1, h1, h2, h3⟩ := runDrag_sameNodes s0 s d hs (hev d (by simp)).1
      (hev d (by simp)).2 hnd hf
    exact ⟨s1, by simp [runDrags, h1], h2, h3⟩
  | cons d2 ds ih =>
    obtain ⟨s1, h1, h2, -⟩ := runDrag_sameNodes s0 s d hs (hev d (by simp)).1
      (hev d (by simp)).2 hnd hf
    obtain ⟨s2, h3, h4, h5⟩ := ih d2 s1 h2 (fun e he => hev e (List.mem_cons_of_mem _ he))
    refine ⟨s2, ?_, h4, h5⟩
    rw [runDrags, h1]
    exact h3

/-- C1 (re-index correctness).  Take a container whose child nodes are distinct and whose `N`
rows each carry an order-field, and any non-empty sequence of completed drags (each a
`dragstart` on a row, `dragover` events on rows, and the `dragend` of the same row).  The whole
sequence runs without exception, the final rows are the initial rows in some order, and the
order-field values read in top-to-bottom row order after the last `dragend` are the strings of
`0, 1, ..., N-1`.  For the delegated variant the same holds of the `onEnd` callback on whatever
order the library left: the order-fields (by `id`) of the rows it walks (`tr.form-row`) read
`0, 1, ..., M-1`. -/
theorem reindex_after_drags (s : State) (ds : List Drag) (hnd : s.children.Nodup)
    (hf : ∀ k ∈ rows s, hasOrderField nameSortOrder (s.node k) = true)
    (hev : ∀ d ∈ ds, d.row ∈ rows s ∧ ∀ o ∈ d.overs, o.target ∈ rows s)
    (hne : ds ≠ []) :
    (∃ s1, runDrags s ds = .ok s1 ∧ (rows s1).Perm (rows s) ∧
      orderValues s1 = (List.range (rows s).length).map (fun i => some (toString i))) ∧
    (∀ (children : List Nat) (node : Store), children.Nodup →
      (∀ k ∈ querySelectorAll isTrFormRow children node,
        hasOrderField idSortOrder (node k) = true) →
      (querySelectorAll isTrFormRow children (Delegated.onEnd children node)).map
          (fun k => orderValue idSortOrder (Delegated.onEnd children node k)) =
        (List.range (querySelectorAll isTrFormRow children node).length).map
          (fun i => some (toString i))) := by
  constructor
  · cases ds with
    | nil => exact absurd rfl hne
    | cons d ds =>
      obtain ⟨s1, h1, h2, h3⟩ := runDrags_cons_sameNodes s hnd hf ds d s
        ⟨List.Perm.refl _, fun _ => rfl, fun _ => rfl⟩
        (fun e he => ⟨rows_subset s _ (hev e he).1,
          fun o ho => rows_subset s _ ((hev e he).2 o ho)⟩)
      exact ⟨s1, h1, h2.rows_perm, h3⟩
  · intro children node hnd2 hf2
    exact forEachRow_orderValues isTrFormRow (fun _ _ => rfl) idSortOrder
      idSortOrder_ignoresValue children node hnd2 hf2

/-- Witness of C1: the scenario.  Rows A, B, C with fields 0, 1, 2; A is dragged over the lower
half of C and dropped. -/
theorem reindex_after_drags_witness :
    abc.children.Nodup ∧
    (∀ k ∈ rows abc, hasOrderField nameSortOrder (abc.node k) = true) ∧
    ∃ s1, runDrags abc [⟨0, [⟨2, 15, 0, 20⟩]⟩] = .ok s1 ∧ (rows s1).Perm (rows abc) ∧
      orderValues s1 = (List.range (rows abc).length).map (fun i => some (toString i)) :=
  ⟨by decide, by decide,
    (reindex_after_drags abc [⟨0, [⟨2, 15, 0, 20⟩]⟩] (by decide) (by decide) (by decide)
      (by simp)).1⟩

end HandRolled

theorem forEachRow_row (p : Node → Bool) (sel : Input → Bool) (hs : IgnoresValue sel)
    (cs : List Nat) (node : Store) (hnd : cs.Nodup) (i row : Nat)
    (h : (querySelectorAll p cs node)[i]? = some row) :
    (hasOrderField sel (node row) = false →
      forEachRow sel (querySelectorAll p cs node) 0 node row = node row) ∧
    (∀ j, querySelector sel (node row).inputs = some j →
      forEachRow sel (querySelectorAll p cs node) 0 node row =
        { node row with inputs := setValue (node row).inputs j (toString i) } ∧
      orderValue sel (forEachRow sel (querySelectorAll p cs node) 0 node row) =
        some (toString i)) := by
  have hw := forEachRow_at sel hs (querySelectorAll p cs node) node (hnd.filter _) i row h
  constructor
  · intro hno
    rw [hw]
    apply written_of_none
    unfold hasOrderField at hno
    cases hq : querySelector sel (node row).inputs with
    | none => rfl
    | some j => simp [hq] at hno
  · intro j hj
    rw [hw]
    exact ⟨written_of_some sel _ i j hj, orderValue_written sel hs _ i j hj⟩

namespace HandRolled

theorem reindex_nodeName (cs : List Nat) (node : Store) (k : Nat) :
    (reindex cs node k).nodeName = (node k).nodeName :=
  forEachRow_preserves (fun n => n.nodeName) (fun _ _ => rfl) nameSortOrder
    nameSortOrder_ignoresValue _ 0 node k

theorem reindex_classList (cs : List Nat) (node : Store) (k : Nat) :
    (reindex cs node k).classList = (node k).classList :=
  forEachRow_preserves (fun n => n.classList) (fun _ _ => rfl) nameSortOrder
    nameSortOrder_ignoresValue _ 0 node k

theorem reindex_draggable (cs : List Nat) (node : Store) (k : Nat) :
    (reindex cs node k).draggable = (node k).draggable :=
  forEachRow_preserves (fun n => n.draggable) (fun _ _ => rfl) nameSortOrder
    nameSortOrder_ignoresValue _ 0 node k

theorem querySelectorAll_congr (p : Node → Bool) (cs : List Nat) (node1 node2 : Store)
    (h : ∀ k, p (node1 k) = p (node2 k)) :
    querySelectorAll p cs node1 = querySelectorAll p cs node2 := by
  unfold querySelectorAll
  congr 1
  funext k
  exact h k

/-- C4 (re-index with missing order-fields).  For every container with distinct child nodes
(no rows, rows with and rows without an order-field alike) the `dragend` listener returns
without exception, keeps the child list and the rows, and re-indexes: the row at 0-based
position `i` among all rows gets `String(i)` as the value of its order-field (the first input
whose name ends in `sort_order`, at place `j`) and no other input changes; a row without an
order-field, and every node that is not a row, keeps all its inputs; apart from the inputs only
the opacity of the listener's row changes.  The `onEnd` callback of the delegated variant does
the same over the rows it walks (`tr.form-row`, position counted among these, field by `id`)
and leaves every other node as it is. -/
theorem dragend_reindex (s : State) (tr : Nat) (hnd : s.children.Nodup) :
    (∃ s1, dragend s tr = .ok s1 ∧ s1.children = s.children ∧ rows s1 = rows s ∧
      (∀ (i row : Nat), (rows s)[i]? = some row →
        (hasOrderField nameSortOrder (s.node row) = false →
          (s1.node row).inputs = (s.node row).inputs) ∧
        (∀ j, querySelector nameSortOrder (s.node row).inputs = some j →
          (s1.node row).inputs = setValue (s.node row).inputs j (toString i) ∧
          orderValue nameSortOrder (s1.node row) = some (toString i))) ∧
      (∀ k, k ∉ rows s → (s1.node k).inputs = (s.node k).inputs) ∧
      (∀ k, (s1.node k).nodeName = (s.node k).nodeName ∧
        (s1.node k).classList = (s.node k).classList ∧
        (s1.node k).draggable = (s.node k).draggable ∧
        (s1.node k).opacity = if k = tr then "1" else (s.node k).opacity)) ∧
    (∀ node : Store,
      (∀ (i row : Nat), (querySelectorAll isTrFormRow s.children node)[i]? = some row →
        (hasOrderField idSortOrder (node row) = false →
          Delegated.onEnd s.children node row = node row) ∧
        (∀ j, querySelector idSortOrder (node row).inputs = some j →
          Delegated.onEnd s.children node row =
            { node row with inputs := setValue (node row).inputs j (toString i) } ∧
          orderValue idSortOrder (Delegated.onEnd s.children node row) = some (toString i))) ∧
      (∀ k, k ∉ querySelectorAll isTrFormRow s.children node →
        Delegated.onEnd s.children node k = node k)) := by
  constructor
  · have hin : ∀ k, (Function.update s.node tr { (s.node tr) with opacity := "1" } k).inputs =
        (s.node k).inputs := by
      intro k
      by_cases hk : k = tr
      · subst hk; simp
      · simp [Function.update_noteq hk]
    have htr : ∀ k, isTr (Function.update s.node tr { (s.node tr) with opacity := "1" } k) =
        isTr (s.node k) := by
      intro k
      by_cases hk : k = tr
      · subst hk; simp [isTr]
      · simp [Function.update_noteq hk]
    have hrest : ∀ k,
        (Function.update s.node tr { (s.node tr) with opacity := "1" } k).nodeName =
          (s.node k).nodeName ∧
        (Function.update s.node tr { (s.node tr) with opacity := "1" } k).classList =
          (s.node k).classList ∧
        (Function.update s.node tr { (s.node tr) with opacity := "1" } k).draggable =
          (s.node k).draggable ∧
        (Function.update s.node tr { (s.node tr) with opacity := "1" } k).opacity =
          if k = tr then "1" else (s.node k).opacity := by
      intro k
      by_cases hk : k = tr
      · subst hk; simp
      · simp [Function.update_noteq hk, hk]
    have hd : dragend s tr = .ok {
        children := s.children
        draggingRow := none
        node := reindex s.children
          (Function.update s.node tr { (s.node tr) with opacity := "1" }) } := rfl
    generalize Function.update s.node tr { (s.node tr) with opacity := "1" } = node1
      at hd hin htr hrest
    have hrows : querySelectorAll isTr s.children node1 = rows s :=
      querySelectorAll_congr isTr s.children node1 s.node htr
    refine ⟨{ children := s.children, draggingRow := none, node := reindex s.children node1 },
      hd, rfl, ?_, ?_, ?_, ?_⟩
    · show querySelectorAll isTr s.children (reindex s.children node1) = rows s
      rw [← hrows]
      exact querySelectorAll_forEachRow isTr (fun _ _ => rfl) nameSortOrder
        nameSortOrder_ignoresValue _ _ 0 node1
    · intro i row hrow
      rw [← hrows] at hrow
      obtain ⟨h1, h2⟩ := forEachRow_row isTr nameSortOrder nameSortOrder_ignoresValue
        s.children node1 hnd i row hrow
      constructor
      · intro hno
        show (reindex s.children node1 row).inputs = _
        have : hasOrderField nameSortOrder (node1 row) = false := by
          unfold hasOrderField at hno ⊢
          rw [hin row]; exact hno
        rw [reindex, h1 this, hin row]
      · intro j hj
        have hj1 : querySelector nameSortOrder (node1 row).inputs = some j := by
          rw [hin row]; exact hj
        obtain ⟨h3, h4⟩ := h2 j hj1
        refine ⟨?_, h4⟩
        show (reindex s.children node1 row).inputs = _
        rw [reindex, h3, hin row]
    · intro k hk
      rw [← hrows] at hk
      show (reindex s.children node1 k).inputs = _
      rw [reindex, forEachRow_of_not_mem nameSortOrder nameSortOrder_ignoresValue _ 0 node1 k hk,
        hin k]
    · intro k
      obtain ⟨h1, h2, h3, h4⟩ := hrest k
      refine ⟨?_, ?_, ?_, ?_⟩
      · show (reindex s.children node1 k).nodeName = _
        rw [reindex_nodeName, h1]
      · show (reindex s.children node1 k).classList = _
        rw [reindex_classList, h2]
      · show (reindex s.children node1 k).draggable = _
        rw [reindex_draggable, h3]
      · show (reindex s.children node1 k).opacity = _
        rw [reindex_opacity, h4]
  · intro node
    constructor
    · intro i row hrow
      exact forEachRow_row isTrFormRow idSortOrder idSortOrder_ignoresValue s.children node hnd
        i row hrow
    · intro k hk
      exact forEachRow_of_not_mem idSortOrder idSortOrder_ignoresValue _ 0 node k hk


/-- Witness of C4: a container with a row carrying an order-field, a text node, a row without
order-field and another row with one; after `dragend` the last row, at position 2 among the
rows, holds `"2"`, and the row without order-field has its inputs unchanged. -/
theorem dragend_reindex_witness :
    mixed.children.Nodup ∧
    ∃ s1, dragend mixed 0 = .ok s1 ∧ s1.children = mixed.children ∧
      orderValue nameSortOrder (s1.node 3) = some "2" ∧
      (s1.node 2).inputs = (mixed.node 2).inputs := by
  refine ⟨by decide, ?_⟩
  obtain ⟨s1, h1, h2, -, h4, -, -⟩ := (dragend_reindex mixed 0 (by decide)).1
  exact ⟨s1, h1, h2, ((h4 2 3 (by decide)).2 0 (by decide)).2, (h4 1 2 (by decide)).1 (by decide)⟩

theorem written_inputs_congr (sel : Input → Bool) (n m : Node) (j : Nat)
    (h : n.inputs = m.inputs) : (written sel n j).inputs = (written sel m j).inputs := by
  unfold written
  rw [h]
  cases querySelector sel m.inputs with
  | none => exact h
  | some p => simp [h]

theorem forEachRow_inputs_congr (sel : Input → Bool) (hs : IgnoresValue sel) (ks : List Nat)
    (i : Nat) (node1 node2 : Store) (h : ∀ k, (node1 k).inputs = (node2 k).inputs) (k : Nat) :
    (forEachRow sel ks i node1 k).inputs = (forEachRow sel ks i node2 k).inputs := by
  rw [forEachRow_apply sel hs, forEachRow_apply sel hs]
  cases lastWrite ks i k with
  | none => exact h k
  | some j => exact written_inputs_congr sel _ _ j (h k)

theorem reindex_reindex (children : List Nat) (node : Store) :
    reindex children (reindex children node) = reindex children node := by
  have h : querySelectorAll isTr children (reindex children node) =
      querySelectorAll isTr children node :=
    querySelectorAll_forEachRow isTr (fun _ _ => rfl) nameSortOrder
      nameSortOrder_ignoresValue _ _ 0 node
  show forEachRow nameSortOrder (querySelectorAll isTr children (reindex children node)) 0
    (reindex children node) = reindex children node
  rw [h]
  exact forEachRow_idem nameSortOrder nameSortOrder_ignoresValue _ 0 node

theorem onEnd_onEnd (children : List Nat) (node : Store) :
    Delegated.onEnd children (Delegated.onEnd children node) = Delegated.onEnd children node := by
  have h : querySelectorAll isTrFormRow children (Delegated.onEnd children node) =
      querySelectorAll isTrFormRow children node :=
    querySelectorAll_forEachRow isTrFormRow (fun _ _ => rfl) idSortOrder
      idSortOrder_ignoresValue _ _ 0 node
  show forEachRow idSortOrder
    (querySelectorAll isTrFormRow children (Delegated.onEnd children node)) 0
    (Delegated.onEnd children node) = Delegated.onEnd children node
  rw [h]
  exact forEachRow_idem idSortOrder idSortOrder_ignoresValue _ 0 node

theorem orderValue_congr (sel : Input → Bool) (n m : Node) (h : n.inputs = m.inputs) :
    orderValue sel n = orderValue sel m := by
  unfold orderValue
  rw [h]

theorem setOpacity_inputs (node : Store) (tr : Nat) (v : String) (k : Nat) :
    (Function.update node tr { (node tr) with opacity := v } k).inputs = (node k).inputs := by
  by_cases hk : k = tr
  · subst hk; simp
  · simp [Function.update_noteq hk]

theorem setOpacity_isTr (node : Store) (tr : Nat) (v : String) (k : Nat) :
    isTr (Function.update node tr { (node tr) with opacity := v } k) = isTr (node k) := by
  by_cases hk : k = tr
  · subst hk; simp [isTr]
  · simp [Function.update_noteq hk]

theorem reindex_setOpacity_inputs (cs : List Nat) (node : Store) (r : Nat) (v : String)
    (k : Nat) :
    (reindex cs (Function.update node r { (node r) with opacity := v }) k).inputs =
      (reindex cs node k).inputs := by
  unfold reindex
  rw [querySelectorAll_congr isTr cs _ node (setOpacity_isTr node r v)]
  exact forEachRow_inputs_congr nameSortOrder nameSortOrder_ignoresValue _ 0 _ node
    (setOpacity_inputs node r v) k

theorem setOpacity_self (n : Node) (v : String) (h : n.opacity = v) :
    { n with opacity := v } = n := by
  cases n
  simp at h
  simp [h]

/-- C7 (idempotence of re-index).  For every container state, a `dragend` followed by a second
`dragend` (of any row) with no reorder in between both return without exception, neither
changes the child list or the rows, and the second leaves every input, and so the order-field
values read in row order, as the first left them; when the second is the `dragend` of the same
row the whole state is the same.  As functions on the heap,
`reindex (reindex node) = reindex node`, and likewise for the `onEnd` callback of the delegated
variant. -/
theorem reindex_idempotent (s : State) (tr tr2 : Nat) :
    (∃ s1 s2, dragend s tr = .ok s1 ∧ dragend s1 tr2 = .ok s2 ∧
      s1.children = s.children ∧ s2.children = s.children ∧
      rows s1 = rows s ∧ rows s2 = rows s ∧
      (∀ k, (s2.node k).inputs = (s1.node k).inputs) ∧
      orderValues s2 = orderValues s1 ∧
      (tr2 = tr → s2 = s1)) ∧
    (∀ (children : List Nat) (node : Store),
      reindex children (reindex children node) = reindex children node) ∧
    (∀ (children : List Nat) (node : Store),
      Delegated.onEnd children (Delegated.onEnd children node) =
        Delegated.onEnd children node) := by
  refine ⟨?_, reindex_reindex, onEnd_onEnd⟩
  have hrows : ∀ (node : Store) (r : Nat),
      querySelectorAll isTr s.children (reindex s.children
        (Function.update node r { (node r) with opacity := "1" })) =
        querySelectorAll isTr s.children node := by
    intro node r
    rw [reindex, querySelectorAll_forEachRow isTr (fun _ _ => rfl) nameSortOrder
      nameSortOrder_ignoresValue]
    exact querySelectorAll_congr isTr _ _ _ (setOpacity_isTr node r "1")
  have hd1 : dragend s tr = .ok {
      children := s.children
      draggingRow := none
      node := reindex s.children
        (Function.update s.node tr { (s.node tr) with opacity := "1" }) } := rfl
  have hop : (reindex s.children
      (Function.update s.node tr { (s.node tr) with opacity := "1" }) tr).opacity = "1" := by
    rw [reindex_opacity]; simp
  have hidem := reindex_reindex s.children
    (Function.update s.node tr { (s.node tr) with opacity := "1" })
  have hr1 := hrows s.node tr
  generalize reindex s.children
    (Function.update s.node tr { (s.node tr) with opacity := "1" }) = node1
    at hd1 hop hidem hr1
  have hin : ∀ k, (reindex s.children
      (Function.update node1 tr2 { (node1 tr2) with opacity := "1" }) k).inputs =
      (node1 k).inputs := by
    intro k
    rw [reindex_setOpacity_inputs, hidem]
  have hr2 := hrows node1 tr2
  refine ⟨_, State.mk s.children (reindex s.children
      (Function.update node1 tr2 { (node1 tr2) with opacity := "1" })) none,
    hd1, rfl, rfl, rfl, hr1, hr2.trans hr1, hin, ?_, ?_⟩
  · show List.map _ (querySelectorAll isTr s.children _) =
      List.map _ (querySelectorAll isTr s.children node1)
    rw [hr2]
    apply List.map_congr_left
    intro k _
    exact orderValue_congr nameSortOrder _ _ (hin k)
  · intro h
    subst h
    have h1 : Function.update node1 tr2 { (node1 tr2) with opacity := "1" } = node1 := by
      rw [setOpacity_self (node1 tr2) "1" hop]
      exact Function.update_eq_self tr2 node1
    show State.mk _ _ _ = State.mk _ _ _
    rw [h1, hidem]

end HandRolled

theorem lastWrite_mem (ks : List Nat) (i k j : Nat) (h : lastWrite ks i k = some j) :
    k ∈ ks := by
  by_contra hk
  rw [lastWrite_of_not_mem ks i k hk] at h
  cases h

theorem forEachRow_sel_congr (sel1 sel2 : Input → Bool) (hs1 : IgnoresValue sel1)
    (hs2 : IgnoresValue sel2) (ks : List Nat) (i : Nat) (node : Store)
    (h : ∀ k ∈ ks, querySelector sel1 (node k).inputs = querySelector sel2 (node k).inputs) :
    forEachRow sel1 ks i node = forEachRow sel2 ks i node := by
  funext k
  rw [forEachRow_apply sel1 hs1, forEachRow_apply sel2 hs2]
  cases hl : lastWrite ks i k with
  | none => rfl
  | some j =>
    have hk := lastWrite_mem ks i k j hl
    simp only [written, h k hk]

/-- C8, counterexample.  (1) A container whose first row is `tr.row-form-errors` and whose
second row is a form row with order-field value 5: the hand-rolled re-index writes `"1"` into
the second row's order-field, `onEnd` writes `"0"`.  (2) A form row whose order-field has a
name ending in `sort_order` and no id: the hand-rolled re-index writes `"0"`, `onEnd` leaves
the value 5. -/
theorem onEnd_reindex_counterexample :
    ((HandRolled.reindex [0, 1] errorRowStore 1).inputs.map (fun i => i.value) = ["1"] ∧
      (Delegated.onEnd [0, 1] errorRowStore 1).inputs.map (fun i => i.value) = ["0"]) ∧
    ((HandRolled.reindex [0] noIdStore 0).inputs.map (fun i => i.value) = ["0"] ∧
      (Delegated.onEnd [0] noIdStore 0).inputs.map (fun i => i.value) = ["5"]) := by
  decide

/-- C8 as amended.  For every container in which every row (`tr`) has the class `form-row`
and, in every row, the first input whose id ends in `sort_order` is the first input whose name
ends in `sort_order` (or the row has neither), the `onEnd` callback of the delegated variant
and the re-index of the hand-rolled `dragend` listener give the same heap: they write the same
value into the same rows' order-fields. -/
theorem onEnd_eq_reindex (children : List Nat) (node : Store)
    (hc : ∀ k ∈ children, isTr (node k) = true → (node k).classList.contains "form-row" = true)
    (hq : ∀ k ∈ children, isTr (node k) = true →
      querySelector idSortOrder (node k).inputs = querySelector nameSortOrder (node k).inputs) :
    Delegated.onEnd children node = HandRolled.reindex children node := by
  have hrows : querySelectorAll isTrFormRow children node = querySelectorAll isTr children node := by
    unfold querySelectorAll
    apply List.filter_congr
    intro k hk
    unfold isTrFormRow
    cases h : isTr (node k) with
    | false => rfl
    | true => simpa using hc k hk h
  unfold Delegated.onEnd HandRolled.reindex
  rw [hrows]
  apply forEachRow_sel_congr idSortOrder nameSortOrder idSortOrder_ignoresValue
    nameSortOrder_ignoresValue
  intro k hk
  have hk1 := List.mem_filter.1 hk
  exact hq k hk1.1 hk1.2

/-- Witness of the amended C8: the scenario's container, whose rows are all `tr.form-row` with
an input whose id and name both end in `sort_order`. -/
theorem onEnd_eq_reindex_witness :
    (∀ k ∈ abc.children, isTr (abc.node k) = true →
      (abc.node k).classList.contains "form-row" = true) ∧
    (∀ k ∈ abc.children, isTr (abc.node k) = true →
      querySelector idSortOrder (abc.node k).inputs =
        querySelector nameSortOrder (abc.node k).inputs) ∧
    Delegated.onEnd abc.children abc.node = HandRolled.reindex abc.children abc.node :=
  ⟨by decide, by decide, onEnd_eq_reindex abc.children abc.node (by decide) (by decide)⟩

/-- With its targets present the module function makes every row draggable and registers the
three listeners on each: in the scenario's page, nine listeners and a controller with no drag
session. -/
theorem init_scenario :
    ∃ p s, HandRolled.init abcPage = .ok (p, some s) ∧ p.listeners.length = 9 ∧
      (∀ k ∈ [0, 1, 2], (p.node k).draggable = true) ∧ s.children = [0, 1, 2] ∧
      s.draggingRow = none :=
  ⟨_, _, rfl, by decide, by decide, rfl, rfl⟩

/-- With Sortable loaded the `DOMContentLoaded` listener creates a sortable for each inline group
that has a tbody. -/
theorem onDOMContentLoaded_scenario :
    Delegated.onDOMContentLoaded { inlineGroups := [none, some [0, 1, 2]], Sortable := true } =
      .ok [{ group := 1, tbody := [0, 1, 2], handle := "tr", animation := 150 }] :=
  rfl

end Sortable

namespace Sortable
namespace HandRolled

/-- The scenario evaluated end to end: rows A, B, C with fields 0, 1, 2; A is dragged over the
lower half of C and dropped.  The final order is B, C, A and the fields read 0, 1, 2 from top
to bottom, that is B = 0, C = 1, A = 2. -/
theorem scenario_fields :
    ∃ s1, runDrags abc [⟨0, [⟨2, 15, 0, 20⟩]⟩] = .ok s1 ∧ s1.children = [1, 2, 0] ∧
      s1.draggingRow = none ∧ orderValues s1 = [some "0", some "1", some "2"] ∧
      orderValue nameSortOrder (s1.node 1) = some "0" ∧
      orderValue nameSortOrder (s1.node 2) = some "1" ∧
      orderValue nameSortOrder (s1.node 0) = some "2" := by
  have h : (20 : ℚ) / 2 < 15 - 0 := by norm_num
  have hrun : runDrags abc [⟨0, [⟨2, 15, 0, 20⟩]⟩] = .ok {
      children := [1, 2, 0]
      draggingRow := none
      node := reindex [1, 2, 0] (Function.update
        (Function.update abcStore 0 { (abcStore 0) with opacity := "0.5" }) 0
        { (abcStore 0) with opacity := "1" }) } := by
    simp only [runDrags, runDrag, dragstart, dragovers, dragover, gt_iff_lt, h, decide_True,
      if_true]
    rfl
  exact ⟨_, hrun, rfl, rfl, by decide, by decide, by decide, by decide⟩

end HandRolled
end Sortable
